import Mathlib

/-
Verification of the puzzle geometry and compositing engine of the
puzzle-generator repository (src/react-app/components/PuzzleGenerator.tsx).

The engine is embedded shallowly:
- real-valued canvas coordinates become exact rationals;
- the nondeterministic coin flips behind the classic edge pattern are a
  parameter (coin : grid position -> side -> Bool), so statements quantify
  over every possible outcome;
- the nondeterministic index stream behind the missing-piece selector is a
  parameter (stream : step -> index), with an explicit fuel bound replacing
  the unbounded while loop;
- the sine-based deterministic generator is modelled over the reals;
  the polygonal shape synthesis is parametric in the per-piece value
  sequence it consumes, with the [0,1) range of those values as a
  hypothesis where a theorem needs it;
- canvas drawing becomes explicit command lists (a path is a list of
  move / line / quadratic-curve / close commands, a raster is a list of
  draw, stroke and hole-cut operations applied to the source image).
-/

namespace Puzzle

/-! ## Classic edge pattern (PuzzleGenerator.tsx lines 131-161) -/

/-- Edge flags of one grid cell: true is a protruding tab, false a recessed
blank or a flat border edge. -/
structure EdgeFlags where
  top : Bool
  right : Bool
  bottom : Bool
  left : Bool
deriving DecidableEq, Repr

/-- The mutable piecePattern array, modelled as a total function from grid
coordinates (row, column) to edge flags. -/
abbrev Pattern := ℕ → ℕ → EdgeFlags

/-- Random-initialization pass (lines 134-144): boundary edges are forced
false, interior edges take an arbitrary coin flip. The coin argument gives
the outcome of each Math.random() > 0.5 comparison, one per cell and side. -/
def initPattern (rows cols : ℕ) (coin : ℕ → ℕ → Fin 4 → Bool) : Pattern := fun r c =>
  { top := if r = 0 then false else coin r c 0
    right := if c = cols - 1 then false else coin r c 1
    bottom := if r = rows - 1 then false else coin r c 2
    left := if c = 0 then false else coin r c 3 }

/-- Pointwise update of the left flag of cell (r, c). -/
def setLeft (p : Pattern) (r c : ℕ) (b : Bool) : Pattern := fun r0 c0 =>
  if r0 = r ∧ c0 = c then { p r0 c0 with left := b } else p r0 c0

/-- Pointwise update of the top flag of cell (r, c). -/
def setTop (p : Pattern) (r c : ℕ) (b : Bool) : Pattern := fun r0 c0 =>
  if r0 = r ∧ c0 = c then { p r0 c0 with top := b } else p r0 c0

/-- One iteration of the consistency pass at cell (r, c) (lines 149-160):
if the cell has a right neighbor, the neighbor left flag becomes the negation
of this cell right flag; then, if it has a bottom neighbor, the neighbor top
flag becomes the negation of this cell bottom flag. -/
def stepCell (rows cols : ℕ) (p : Pattern) (r c : ℕ) : Pattern :=
  let p1 := if c < cols - 1 then setLeft p r (c + 1) (!((p r c).right)) else p
  if r < rows - 1 then setTop p1 (r + 1) c (!((p1 r c).bottom)) else p1

/-- Process the first n cells (columns 0..n-1) of row r, in order. -/
def propCells (rows cols r : ℕ) : ℕ → Pattern → Pattern
  | 0, p => p
  | n + 1, p => stepCell rows cols (propCells rows cols r n p) r n

/-- Process the first m rows, in row-major order. -/
def propRows (rows cols : ℕ) : ℕ → Pattern → Pattern
  | 0, p => p
  | m + 1, p => propCells rows cols m cols (propRows rows cols m p)

/-- The complete classic pattern: random initialization followed by the
row-major consistency pass over every cell. -/
def classicPattern (rows cols : ℕ) (coin : ℕ → ℕ → Fin 4 → Bool) : Pattern :=
  propRows rows cols rows (initPattern rows cols coin)

lemma setLeft_right (p : Pattern) (r c : ℕ) (b : Bool) (r0 c0 : ℕ) :
    (setLeft p r c b r0 c0).right = (p r0 c0).right := by
  unfold setLeft; split <;> rfl

lemma setLeft_bottom (p : Pattern) (r c : ℕ) (b : Bool) (r0 c0 : ℕ) :
    (setLeft p r c b r0 c0).bottom = (p r0 c0).bottom := by
  unfold setLeft; split <;> rfl

lemma setLeft_top (p : Pattern) (r c : ℕ) (b : Bool) (r0 c0 : ℕ) :
    (setLeft p r c b r0 c0).top = (p r0 c0).top := by
  unfold setLeft; split <;> rfl

lemma setLeft_left (p : Pattern) (r c : ℕ) (b : Bool) (r0 c0 : ℕ) :
    (setLeft p r c b r0 c0).left = if r0 = r ∧ c0 = c then b else (p r0 c0).left := by
  unfold setLeft; split <;> rfl

lemma setTop_right (p : Pattern) (r c : ℕ) (b : Bool) (r0 c0 : ℕ) :
    (setTop p r c b r0 c0).right = (p r0 c0).right := by
  unfold setTop; split <;> rfl

lemma setTop_bottom (p : Pattern) (r c : ℕ) (b : Bool) (r0 c0 : ℕ) :
    (setTop p r c b r0 c0).bottom = (p r0 c0).bottom := by
  unfold setTop; split <;> rfl

lemma setTop_left (p : Pattern) (r c : ℕ) (b : Bool) (r0 c0 : ℕ) :
    (setTop p r c b r0 c0).left = (p r0 c0).left := by
  unfold setTop; split <;> rfl

lemma setTop_top (p : Pattern) (r c : ℕ) (b : Bool) (r0 c0 : ℕ) :
    (setTop p r c b r0 c0).top = if r0 = r ∧ c0 = c then b else (p r0 c0).top := by
  unfold setTop; split <;> rfl

lemma stepCell_right (rows cols : ℕ) (p : Pattern) (r c r0 c0 : ℕ) :
    (stepCell rows cols p r c r0 c0).right = (p r0 c0).right := by
  unfold stepCell
  by_cases h1 : c < cols - 1 <;> by_cases h2 : r < rows - 1 <;>
    simp [h1, h2, setLeft_right, setTop_right]

lemma stepCell_bottom (rows cols : ℕ) (p : Pattern) (r c r0 c0 : ℕ) :
    (stepCell rows cols p r c r0 c0).bottom = (p r0 c0).bottom := by
  unfold stepCell
  by_cases h1 : c < cols - 1 <;> by_cases h2 : r < rows - 1 <;>
    simp [h1, h2, setLeft_bottom, setTop_bottom]

lemma stepCell_left (rows cols : ℕ) (p : Pattern) (r c r0 c0 : ℕ) :
    (stepCell rows cols p r c r0 c0).left =
      if r0 = r ∧ c0 = c + 1 ∧ c < cols - 1 then !((p r c).right) else (p r0 c0).left := by
  unfold stepCell
  by_cases h1 : c < cols - 1 <;> by_cases h2 : r < rows - 1 <;>
    simp [h1, h2, setLeft_left, setTop_left]

lemma stepCell_top (rows cols : ℕ) (p : Pattern) (r c r0 c0 : ℕ) :
    (stepCell rows cols p r c r0 c0).top =
      if r0 = r + 1 ∧ c0 = c ∧ r < rows - 1 then !((p r c).bottom) else (p r0 c0).top := by
  unfold stepCell
  by_cases h1 : c < cols - 1 <;> by_cases h2 : r < rows - 1 <;>
    simp [h1, h2, setLeft_top, setLeft_bottom, setTop_top]

lemma propCells_right (rows cols r : ℕ) (p : Pattern) (n r0 c0 : ℕ) :
    (propCells rows cols r n p r0 c0).right = (p r0 c0).right := by
  induction n with
  | zero => rfl
  | succ k ih => rw [propCells, stepCell_right, ih]

lemma propCells_bottom (rows cols r : ℕ) (p : Pattern) (n r0 c0 : ℕ) :
    (propCells rows cols r n p r0 c0).bottom = (p r0 c0).bottom := by
  induction n with
  | zero => rfl
  | succ k ih => rw [propCells, stepCell_bottom, ih]

lemma propCells_left (rows cols r : ℕ) (p : Pattern) (n r0 c0 : ℕ) :
    (propCells rows cols r n p r0 c0).left =
      if r0 = r ∧ 1 ≤ c0 ∧ c0 ≤ n ∧ c0 < cols then !((p r (c0 - 1)).right)
      else (p r0 c0).left := by
  induction n with
  | zero => rw [propCells, if_neg (by omega)]
  | succ k ih =>
    rw [propCells, stepCell_left, propCells_right, ih]
    by_cases h1 : r0 = r ∧ c0 = k + 1 ∧ k < cols - 1
    · obtain ⟨hr0, hc0, hk⟩ := h1
      subst hr0; subst hc0
      rw [if_pos ⟨rfl, rfl, hk⟩, if_pos (by omega)]
      simp
    · rw [if_neg h1]
      by_cases h2 : r0 = r ∧ 1 ≤ c0 ∧ c0 ≤ k ∧ c0 < cols
      · rw [if_pos h2, if_pos (by omega)]
      · rw [if_neg h2, if_neg (by omega)]

lemma propCells_top (rows cols r : ℕ) (p : Pattern) (n r0 c0 : ℕ) :
    (propCells rows cols r n p r0 c0).top =
      if r0 = r + 1 ∧ c0 < n ∧ r < rows - 1 then !((p r c0).bottom)
      else (p r0 c0).top := by
  induction n with
  | zero => rw [propCells, if_neg (by omega)]
  | succ k ih =>
    rw [propCells, stepCell_top, propCells_bottom, ih]
    by_cases h1 : r0 = r + 1 ∧ c0 = k ∧ r < rows - 1
    · obtain ⟨hr0, hc0, hk⟩ := h1
      subst hr0; subst hc0
      rw [if_pos ⟨rfl, rfl, hk⟩, if_pos (by omega)]
    · rw [if_neg h1]
      by_cases h2 : r0 = r + 1 ∧ c0 < k ∧ r < rows - 1
      · rw [if_pos h2, if_pos (by omega)]
      · rw [if_neg h2, if_neg (by omega)]

lemma propRows_right (rows cols : ℕ) (p : Pattern) (m r0 c0 : ℕ) :
    (propRows rows cols m p r0 c0).right = (p r0 c0).right := by
  induction m with
  | zero => rfl
  | succ k ih => rw [propRows, propCells_right, ih]

lemma propRows_bottom (rows cols : ℕ) (p : Pattern) (m r0 c0 : ℕ) :
    (propRows rows cols m p r0 c0).bottom = (p r0 c0).bottom := by
  induction m with
  | zero => rfl
  | succ k ih => rw [propRows, propCells_bottom, ih]

lemma propRows_left (rows cols : ℕ) (p : Pattern) (m r0 c0 : ℕ) :
    (propRows rows cols m p r0 c0).left =
      if r0 < m ∧ 1 ≤ c0 ∧ c0 < cols then !((p r0 (c0 - 1)).right)
      else (p r0 c0).left := by
  induction m with
  | zero => rw [propRows, if_neg (by omega)]
  | succ k ih =>
    rw [propRows, propCells_left, propRows_right, ih]
    by_cases h1 : r0 = k ∧ 1 ≤ c0 ∧ c0 ≤ cols ∧ c0 < cols
    · obtain ⟨hr0, hc1, hc2, hc3⟩ := h1
      subst hr0
      rw [if_pos ⟨rfl, hc1, hc2, hc3⟩, if_pos (by omega)]
    · rw [if_neg h1]
      by_cases h2 : r0 < k ∧ 1 ≤ c0 ∧ c0 < cols
      · rw [if_pos h2, if_pos (by omega)]
      · rw [if_neg h2, if_neg (by omega)]

lemma propRows_top (rows cols : ℕ) (p : Pattern) (m r0 c0 : ℕ) :
    (propRows rows cols m p r0 c0).top =
      if 1 ≤ r0 ∧ r0 ≤ m ∧ r0 < rows ∧ c0 < cols then !((p (r0 - 1) c0).bottom)
      else (p r0 c0).top := by
  induction m with
  | zero => rw [propRows, if_neg (by omega)]
  | succ k ih =>
    rw [propRows, propCells_top, propRows_bottom, ih]
    by_cases h1 : r0 = k + 1 ∧ c0 < cols ∧ k < rows - 1
    · obtain ⟨hr0, hc0, hk⟩ := h1
      subst hr0
      rw [if_pos ⟨rfl, hc0, hk⟩, if_pos (by omega)]
      simp
    · rw [if_neg h1]
      by_cases h2 : 1 ≤ r0 ∧ r0 ≤ k ∧ r0 < rows ∧ c0 < cols
      · rw [if_pos h2, if_pos (by omega)]
      · rw [if_neg h2, if_neg (by omega)]

/-- Neighbor-consistency: across every interior shared edge the two flags
are logical negations of one another. -/
def neighborConsistent (rows cols : ℕ) (p : Pattern) : Prop :=
  (∀ r c, r < rows → c + 1 < cols → (p r (c + 1)).left = !((p r c).right)) ∧
  (∀ r c, r + 1 < rows → c < cols → (p (r + 1) c).top = !((p r c).bottom))

/-- Every edge on the outer grid boundary carries the flag false. -/
def boundaryFalse (rows cols : ℕ) (p : Pattern) : Prop :=
  (∀ c, c < cols → (p 0 c).top = false) ∧
  (∀ r, r < rows → (p r (cols - 1)).right = false) ∧
  (∀ c, c < cols → (p (rows - 1) c).bottom = false) ∧
  (∀ r, r < rows → (p r 0).left = false)

/-- C1: for every classic-style grid with rows >= 3 and columns >= 3, after
the random-initialization pass and the row-major propagation pass, every
interior shared edge satisfies the negation invariant (the left flag of the
right neighbor equals the negated right flag, the top flag of the bottom
neighbor equals the negated bottom flag), and every edge on the grid
boundary is false - for every possible outcome of the random coin flips. -/
theorem classic_pattern_invariant (rows cols : ℕ) (coin : ℕ → ℕ → Fin 4 → Bool)
    (hr : 3 ≤ rows) (hc : 3 ≤ cols) :
    neighborConsistent rows cols (classicPattern rows cols coin) ∧
    boundaryFalse rows cols (classicPattern rows cols coin) := by
  unfold classicPattern neighborConsistent boundaryFalse
  refine ⟨⟨?_, ?_⟩, ?_, ?_, ?_, ?_⟩
  · intro r c hrr hcc
    rw [propRows_left, propRows_right, if_pos (by omega)]
    simp
  · intro r c hrr hcc
    rw [propRows_top, propRows_bottom, if_pos (by omega)]
    simp
  · intro c hcc
    rw [propRows_top, if_neg (by omega)]
    simp [initPattern]
  · intro r hrr
    rw [propRows_right]
    simp [initPattern]
  · intro c hcc
    rw [propRows_bottom]
    simp [initPattern]
  · intro r hrr
    rw [propRows_left, if_neg (by omega)]
    simp [initPattern]

/-- C1 witness: the invariant holds on the concrete 3 x 3 grid with every
coin flip landing true. -/
theorem classic_pattern_invariant_w :
    neighborConsistent 3 3 (classicPattern 3 3 (fun _ _ _ => true)) ∧
    boundaryFalse 3 3 (classicPattern 3 3 (fun _ _ _ => true)) :=
  classic_pattern_invariant 3 3 (fun _ _ _ => true) (by norm_num) (by norm_num)

/-! ## Deterministic random source (lines 172-175) -/

/-- The seeded generator used by abstract shapes: the fractional part of
sin(seed * 9.898 + index * 78.233) * 43758.5453, modelled over the reals. -/
noncomputable def jsRandom (seed index : ℝ) : ℝ :=
  let a := Real.sin (seed * 9.898 + index * 78.233) * 43758.5453
  a - ⌊a⌋

/-- C7: jsRandom is a pure total function of (seed, index) - equal arguments
give equal results - and every value lies in the interval [0, 1). -/
theorem jsRandom_pure_in_unit (seed index : ℝ) :
    jsRandom seed index = jsRandom seed index ∧
    0 ≤ jsRandom seed index ∧ jsRandom seed index < 1 := by
  refine ⟨rfl, ?_, ?_⟩
  · exact Int.fract_nonneg (Real.sin (seed * 9.898 + index * 78.233) * 43758.5453)
  · exact Int.fract_lt_one (Real.sin (seed * 9.898 + index * 78.233) * 43758.5453)

/-! ## Configuration and quality-tier scaling (lines 4-11, 96-117) -/

/-- The two piece styles. -/
inductive Style where
  | classic : Style
  | abstract : Style
deriving DecidableEq, Repr

/-- The output quality tiers. -/
inductive Quality where
  | fast : Quality
  | standard : Quality
  | high : Quality
  | original : Quality
deriving DecidableEq, Repr

/-- The fields of PuzzleSettings that the geometry consumes (borderColor
only styles the stroke and outputQuality only selects the target size,
handled separately by scaledDims). -/
structure Settings where
  columns : ℕ
  rows : ℕ
  missingPercentage : ℕ
  pieceStyle : Style
deriving DecidableEq, Repr

/-- Tier cap on the output width (lines 97-102). The original tier carries
Infinity in the source; scaledDims never reads this entry for original
because the source condition short-circuits on the tier first, so the value
recorded here for original is irrelevant. -/
def qualityMaxW : Quality → ℚ
  | Quality.fast => 800
  | Quality.standard => 1280
  | Quality.high => 1920
  | Quality.original => 0

/-- Tier cap on the output height (lines 97-102); same remark as
qualityMaxW for the original tier. -/
def qualityMaxH : Quality → ℚ
  | Quality.fast => 600
  | Quality.standard => 720
  | Quality.high => 1080
  | Quality.original => 0

/-- Quality-tier scaling (lines 104-112): when the tier is not original and
a source dimension exceeds its cap, both dimensions are multiplied by
min(maxW / width, maxH / height). -/
def scaledDims (q : Quality) (w h : ℚ) : ℚ × ℚ :=
  if q ≠ Quality.original ∧ (qualityMaxW q < w ∨ qualityMaxH q < h) then
    let scale := min (qualityMaxW q / w) (qualityMaxH q / h)
    (w * scale, h * scale)
  else (w, h)

/-- C6: the output raster dimensions never exceed the source dimensions,
never exceed the tier cap unless the tier is original, the aspect ratio is
preserved, and whenever scaling occurs both dimensions are multiplied by
the same factor min(maxW / width, maxH / height). -/
theorem quality_scaling (q : Quality) (w h : ℚ) (hw : 0 < w) (hh : 0 < h) :
    (scaledDims q w h).1 ≤ w ∧ (scaledDims q w h).2 ≤ h ∧
    (q ≠ Quality.original →
      (scaledDims q w h).1 ≤ qualityMaxW q ∧ (scaledDims q w h).2 ≤ qualityMaxH q) ∧
    (scaledDims q w h).1 * h = (scaledDims q w h).2 * w ∧
    (q ≠ Quality.original ∧ (qualityMaxW q < w ∨ qualityMaxH q < h) →
      (scaledDims q w h).1 = w * min (qualityMaxW q / w) (qualityMaxH q / h) ∧
      (scaledDims q w h).2 = h * min (qualityMaxW q / w) (qualityMaxH q / h)) := by
  by_cases hcond : q ≠ Quality.original ∧ (qualityMaxW q < w ∨ qualityMaxH q < h)
  · have hscale1 : min (qualityMaxW q / w) (qualityMaxH q / h) ≤ 1 := by
      rcases hcond.2 with hmw | hmh
      · exact le_trans (min_le_left _ _) (le_of_lt ((div_lt_one hw).mpr hmw))
      · exact le_trans (min_le_right _ _) (le_of_lt ((div_lt_one hh).mpr hmh))
    have hww : w * min (qualityMaxW q / w) (qualityMaxH q / h) ≤ w :=
      mul_le_of_le_one_right (le_of_lt hw) hscale1
    have hhh : h * min (qualityMaxW q / w) (qualityMaxH q / h) ≤ h :=
      mul_le_of_le_one_right (le_of_lt hh) hscale1
    have hcapw : w * min (qualityMaxW q / w) (qualityMaxH q / h) ≤ qualityMaxW q := by
      calc w * min (qualityMaxW q / w) (qualityMaxH q / h)
          ≤ w * (qualityMaxW q / w) :=
            mul_le_mul_of_nonneg_left (min_le_left _ _) (le_of_lt hw)
        _ = qualityMaxW q := by field_simp
    have hcaph : h * min (qualityMaxW q / w) (qualityMaxH q / h) ≤ qualityMaxH q := by
      calc h * min (qualityMaxW q / w) (qualityMaxH q / h)
          ≤ h * (qualityMaxH q / h) :=
            mul_le_mul_of_nonneg_left (min_le_right _ _) (le_of_lt hh)
        _ = qualityMaxH q := by field_simp
    simp only [scaledDims, if_pos hcond]
    exact ⟨hww, hhh, fun _ => ⟨hcapw, hcaph⟩, by ring, by simp⟩
  · simp only [scaledDims, if_neg hcond]
    refine ⟨le_refl w, le_refl h, ?_, by ring, fun hx => absurd hx hcond⟩
    intro hq
    have := hcond
    rw [not_and_or] at this
    rcases this with h1 | h2
    · exact absurd hq h1
    · push_neg at h2
      exact ⟨h2.1, h2.2⟩

/-- C6 witness: a 1600 x 1200 source under the fast tier stays within the
source size and under the 800 x 600 cap. -/
theorem quality_scaling_w :
    (scaledDims Quality.fast 1600 1200).1 ≤ 1600 ∧
    (scaledDims Quality.fast 1600 1200).2 ≤ 1200 ∧
    (scaledDims Quality.fast 1600 1200).1 ≤ 800 ∧
    (scaledDims Quality.fast 1600 1200).2 ≤ 600 := by
  have h := quality_scaling Quality.fast 1600 1200 (by norm_num) (by norm_num)
  have hq : Quality.fast ≠ Quality.original := by decide
  exact ⟨h.1, h.2.1, (h.2.2.1 hq).1, (h.2.2.1 hq).2⟩

/-! ## Missing-piece selector and statistics (lines 363-373) -/

/-- missingCount = floor(totalPieces * missingPercentage / 100); natural
division is exactly the floored quotient. -/
def missingCount (s : Settings) : ℕ :=
  s.rows * s.columns * s.missingPercentage / 100

/-- The reported statistics: total piece count and missing count
(line 373). -/
def pieceStats (s : Settings) : ℕ × ℕ :=
  (s.rows * s.columns, missingCount s)

/-- The while loop of lines 368-370: repeatedly draw stream k and insert it
(sets keep insertion order and ignore duplicates, modelled by a duplicate-free
list) until target indices are collected. The fuel argument bounds the
number of iterations so the function is total; none means the loop was still
running when the fuel ran out. -/
def fillMissingL (stream : ℕ → ℕ) (target : ℕ) : ℕ → ℕ → List ℕ → Option (List ℕ)
  | 0, _, acc => if acc.length < target then none else some acc
  | fuel + 1, k, acc =>
    if acc.length < target then
      fillMissingL stream target fuel (k + 1)
        (if stream k ∈ acc then acc else acc ++ [stream k])
    else some acc

/-- A correct missing selection: exactly target distinct indices, all below
the total piece count. -/
def validMissingList (total target : ℕ) (l : List ℕ) : Prop :=
  l.length = target ∧ l.Nodup ∧ ∀ x ∈ l, x < total

lemma fillMissingL_spec (stream : ℕ → ℕ) (total target : ℕ)
    (hs : ∀ k, stream k < total) :
    ∀ fuel k acc l, acc.length ≤ target → acc.Nodup → (∀ x ∈ acc, x < total) →
      fillMissingL stream target fuel k acc = some l →
      validMissingList total target l := by
  intro fuel
  induction fuel with
  | zero =>
    intro k acc l hlen hnd hmem heq
    rw [fillMissingL] at heq
    by_cases hlt : acc.length < target
    · rw [if_pos hlt] at heq
      exact absurd heq (by simp)
    · rw [if_neg hlt] at heq
      obtain rfl := Option.some.inj heq
      exact ⟨by omega, hnd, hmem⟩
  | succ fuel ih =>
    intro k acc l hlen hnd hmem heq
    rw [fillMissingL] at heq
    by_cases hlt : acc.length < target
    · rw [if_pos hlt] at heq
      by_cases hv : stream k ∈ acc
      · rw [if_pos hv] at heq
        exact ih (k + 1) acc l hlen hnd hmem heq
      · rw [if_neg hv] at heq
        refine ih (k + 1) (acc ++ [stream k]) l ?_ ?_ ?_ heq
        · simp; omega
        · rw [List.nodup_append]
          exact ⟨hnd, List.nodup_singleton _, by
            rw [List.disjoint_singleton]; exact hv⟩
        · intro x hx
          rcases List.mem_append.mp hx with hx1 | hx2
          · exact hmem x hx1
          · rw [List.mem_singleton] at hx2
            subst hx2
            exact hs k
    · rw [if_neg hlt] at heq
      obtain rfl := Option.some.inj heq
      exact ⟨by omega, hnd, hmem⟩

/-- C3: the missing count is exactly floor(rows * columns * percentage / 100),
and whenever the selection loop terminates its result holds exactly that many
distinct indices, each inside [0, rows * columns); the reported statistics
are (rows * columns, missingCount). The stream hypothesis states what
floor(Math.random() * totalPieces) satisfies: every drawn index is below the
total. -/
theorem missing_selection_correct (s : Settings) (stream : ℕ → ℕ) (fuel : ℕ)
    (l : List ℕ) (hs : ∀ k, stream k < s.rows * s.columns)
    (hrun : fillMissingL stream (missingCount s) fuel 0 [] = some l) :
    missingCount s = s.rows * s.columns * s.missingPercentage / 100 ∧
    validMissingList (s.rows * s.columns) (missingCount s) l ∧
    pieceStats s = (s.rows * s.columns, missingCount s) := by
  refine ⟨rfl, ?_, rfl⟩
  exact fillMissingL_spec stream (s.rows * s.columns) (missingCount s) hs fuel 0 [] l
    (by simp) (by simp) (by simp) hrun

/-- C3 witness: a 3 x 3 grid at 30 percent gives missingCount 2, and the
loop fed the stream k mod 9 collects the two distinct indices 0 and 1. -/
theorem missing_selection_correct_w :
    validMissingList 9 2 [0, 1] := by
  have hs : ∀ k, (fun k => k % 9) k <
      (Settings.mk 3 3 30 Style.classic).rows * (Settings.mk 3 3 30 Style.classic).columns :=
    fun k => Nat.mod_lt k (by norm_num)
  have h := missing_selection_correct (Settings.mk 3 3 30 Style.classic)
    (fun k => k % 9) 10 [0, 1] hs (by decide)
  exact h.2.1

/-! ## Paths and canvas commands -/

/-- A 2-D point with exact rational coordinates. -/
structure Point where
  x : ℚ
  y : ℚ
deriving DecidableEq, Repr

instance : Inhabited Point := ⟨⟨0, 0⟩⟩

/-- One canvas path command: moveTo, lineTo, quadraticCurveTo (control point
then endpoint), or closePath. -/
inductive PathCmd where
  | move : Point → PathCmd
  | line : Point → PathCmd
  | quadCurve : Point → Point → PathCmd
  | close : PathCmd
deriving DecidableEq, Repr

/-- The point payloads of one command. -/
def cmdPoints : PathCmd → List Point
  | PathCmd.move p => [p]
  | PathCmd.line p => [p]
  | PathCmd.quadCurve c p => [c, p]
  | PathCmd.close => []

/-- Every point mentioned by a command list. -/
def pathPoints (l : List PathCmd) : List Point :=
  l.flatMap cmdPoints

/-! ## Abstract piece path (lines 163-243)

The per-piece closure random(index) is abstracted into a rand argument; the
theorems that need it assume its values lie in [0, 1), which is what the
sine-based jsRandom delivers. -/

/-- segments = 12 + floor(rand 0 * 8) (line 180). -/
def segCount (rand : ℕ → ℚ) : ℕ :=
  12 + (⌊rand 0 * 8⌋).toNat

/-- One perimeter point (lines 186-221): walk the rectangle perimeter by
quartile of t = i / segments, displace across the side, add isotropic
jitter, and clamp both coordinates into the 10 percent halo of the cell. -/
def perimPoint (rand : ℕ → ℚ) (x y w h : ℚ) (segments i : ℕ) : Point :=
  let t : ℚ := (i : ℚ) / (segments : ℚ)
  let padding : ℚ := min w h * (1 / 10)
  let base : ℚ × ℚ :=
    if t < 1 / 4 then
      (x + padding + (t * 4) * (w - 2 * padding),
       y + padding + (rand (i * 2) - 1 / 2) * h * (3 / 10))
    else if t < 1 / 2 then
      (x + w - padding + (rand (i * 2) - 1 / 2) * w * (3 / 10),
       y + padding + ((t - 1 / 4) * 4) * (h - 2 * padding))
    else if t < 3 / 4 then
      (x + w - padding - ((t - 1 / 2) * 4) * (w - 2 * padding),
       y + h - padding + (rand (i * 2) - 1 / 2) * h * (3 / 10))
    else
      (x + padding + (rand (i * 2) - 1 / 2) * w * (3 / 10),
       y + h - padding - ((t - 3 / 4) * 4) * (h - 2 * padding))
  let px : ℚ := base.1 + (rand (i * 3 + 10) - 1 / 2) * min w h * (15 / 100)
  let py : ℚ := base.2 + (rand (i * 3 + 11) - 1 / 2) * min w h * (15 / 100)
  ⟨max (x - w * (1 / 10)) (min (x + w * (11 / 10)) px),
   max (y - h * (1 / 10)) (min (y + h * (11 / 10)) py)⟩

/-- The perimeter point list (lines 183-221). -/
def abstractPoints (rand : ℕ → ℚ) (x y w h : ℚ) : List Point :=
  (List.range (segCount rand)).map (fun i => perimPoint rand x y w h (segCount rand) i)

/-- The commands emitted for step i of the drawing loop (lines 227-239):
an optional kink at the jittered segment midpoint when rand(i*5+20) > 0.7,
then the line to the current point. -/
def kinkBlock (rand : ℕ → ℚ) (w h : ℚ) (pts : List Point) (i : ℕ) : List PathCmd :=
  let cur := pts.getD i default
  let prev := pts.getD (i - 1) default
  (if rand (i * 5 + 20) > 7 / 10 then
    [PathCmd.line ⟨(cur.x + prev.x) / 2 + (rand (i * 4 + 15) - 1 / 2) * min w h * (1 / 10),
                   (cur.y + prev.y) / 2 + (rand (i * 4 + 16) - 1 / 2) * min w h * (1 / 10)⟩]
   else []) ++ [PathCmd.line cur]

/-- drawAbstractPuzzlePiece as a pure path value: move to the first point,
emit the kink blocks for i = 1 .. points-1, close (lines 177-242). -/
def abstractPiecePath (rand : ℕ → ℚ) (x y w h : ℚ) : List PathCmd :=
  let pts := abstractPoints rand x y w h
  if pts.length = 0 then []
  else
    PathCmd.move (pts.getD 0 default) ::
      ((List.range (pts.length - 1)).flatMap (fun j => kinkBlock rand w h pts (j + 1))
        ++ [PathCmd.close])

/-! ## Classic piece path (lines 245-338) -/

/-- Top edge commands (lines 261-278): a tab bump, a blank bump, or a
straight segment when the edge lies on y = 0. -/
def topEdgeCmds (x y w h : ℚ) (t : Bool) : List PathCmd :=
  let tabSize := min w h * (2 / 10)
  let tabRadius := tabSize * (8 / 10)
  let midX := x + w / 2
  if t = true ∧ 0 < y then
    [PathCmd.line ⟨midX - tabSize * (6 / 10), y⟩,
     PathCmd.quadCurve ⟨midX - tabSize * (4 / 10), y - tabRadius * (3 / 10)⟩
       ⟨midX - tabSize * (3 / 10), y - tabRadius⟩,
     PathCmd.quadCurve ⟨midX, y - tabRadius * (12 / 10)⟩
       ⟨midX + tabSize * (3 / 10), y - tabRadius⟩,
     PathCmd.quadCurve ⟨midX + tabSize * (4 / 10), y - tabRadius * (3 / 10)⟩
       ⟨midX + tabSize * (6 / 10), y⟩,
     PathCmd.line ⟨x + w, y⟩]
  else if t = false ∧ 0 < y then
    [PathCmd.line ⟨midX - tabSize * (6 / 10), y⟩,
     PathCmd.quadCurve ⟨midX - tabSize * (4 / 10), y + tabRadius * (3 / 10)⟩
       ⟨midX - tabSize * (3 / 10), y + tabRadius⟩,
     PathCmd.quadCurve ⟨midX, y + tabRadius * (12 / 10)⟩
       ⟨midX + tabSize * (3 / 10), y + tabRadius⟩,
     PathCmd.quadCurve ⟨midX + tabSize * (4 / 10), y + tabRadius * (3 / 10)⟩
       ⟨midX + tabSize * (6 / 10), y⟩,
     PathCmd.line ⟨x + w, y⟩]
  else
    [PathCmd.line ⟨x + w, y⟩]

/-- Right edge commands (lines 280-297); straight when x + w reaches the
image width. -/
def rightEdgeCmds (width x y w h : ℚ) (t : Bool) : List PathCmd :=
  let tabSize := min w h * (2 / 10)
  let tabRadius := tabSize * (8 / 10)
  let midY := y + h / 2
  if t = true ∧ x + w < width then
    [PathCmd.line ⟨x + w, midY - tabSize * (6 / 10)⟩,
     PathCmd.quadCurve ⟨x + w + tabRadius * (3 / 10), midY - tabSize * (4 / 10)⟩
       ⟨x + w + tabRadius, midY - tabSize * (3 / 10)⟩,
     PathCmd.quadCurve ⟨x + w + tabRadius * (12 / 10), midY⟩
       ⟨x + w + tabRadius, midY + tabSize * (3 / 10)⟩,
     PathCmd.quadCurve ⟨x + w + tabRadius * (3 / 10), midY + tabSize * (4 / 10)⟩
       ⟨x + w, midY + tabSize * (6 / 10)⟩,
     PathCmd.line ⟨x + w, y + h⟩]
  else if t = false ∧ x + w < width then
    [PathCmd.line ⟨x + w, midY - tabSize * (6 / 10)⟩,
     PathCmd.quadCurve ⟨x + w - tabRadius * (3 / 10), midY - tabSize * (4 / 10)⟩
       ⟨x + w - tabRadius, midY - tabSize * (3 / 10)⟩,
     PathCmd.quadCurve ⟨x + w - tabRadius * (12 / 10), midY⟩
       ⟨x + w - tabRadius, midY + tabSize * (3 / 10)⟩,
     PathCmd.quadCurve ⟨x + w - tabRadius * (3 / 10), midY + tabSize * (4 / 10)⟩
       ⟨x + w, midY + tabSize * (6 / 10)⟩,
     PathCmd.line ⟨x + w, y + h⟩]
  else
    [PathCmd.line ⟨x + w, y + h⟩]

/-- Bottom edge commands (lines 299-316); straight when y + h reaches the
image height. -/
def bottomEdgeCmds (height x y w h : ℚ) (t : Bool) : List PathCmd :=
  let tabSize := min w h * (2 / 10)
  let tabRadius := tabSize * (8 / 10)
  let midX := x + w / 2
  if t = true ∧ y + h < height then
    [PathCmd.line ⟨midX + tabSize * (6 / 10), y + h⟩,
     PathCmd.quadCurve ⟨midX + tabSize * (4 / 10), y + h + tabRadius * (3 / 10)⟩
       ⟨midX + tabSize * (3 / 10), y + h + tabRadius⟩,
     PathCmd.quadCurve ⟨midX, y + h + tabRadius * (12 / 10)⟩
       ⟨midX - tabSize * (3 / 10), y + h + tabRadius⟩,
     PathCmd.quadCurve ⟨midX - tabSize * (4 / 10), y + h + tabRadius * (3 / 10)⟩
       ⟨midX - tabSize * (6 / 10), y + h⟩,
     PathCmd.line ⟨x, y + h⟩]
  else if t = false ∧ y + h < height then
    [PathCmd.line ⟨midX + tabSize * (6 / 10), y + h⟩,
     PathCmd.quadCurve ⟨midX + tabSize * (4 / 10), y + h - tabRadius * (3 / 10)⟩
       ⟨midX + tabSize * (3 / 10), y + h - tabRadius⟩,
     PathCmd.quadCurve ⟨midX, y + h - tabRadius * (12 / 10)⟩
       ⟨midX - tabSize * (3 / 10), y + h - tabRadius⟩,
     PathCmd.quadCurve ⟨midX - tabSize * (4 / 10), y + h - tabRadius * (3 / 10)⟩
       ⟨midX - tabSize * (6 / 10), y + h⟩,
     PathCmd.line ⟨x, y + h⟩]
  else
    [PathCmd.line ⟨x, y + h⟩]

/-- Left edge commands (lines 318-335); straight when the edge lies on
x = 0. -/
def leftEdgeCmds (x y w h : ℚ) (t : Bool) : List PathCmd :=
  let tabSize := min w h * (2 / 10)
  let tabRadius := tabSize * (8 / 10)
  let midY := y + h / 2
  if t = true ∧ 0 < x then
    [PathCmd.line ⟨x, midY + tabSize * (6 / 10)⟩,
     PathCmd.quadCurve ⟨x - tabRadius * (3 / 10), midY + tabSize * (4 / 10)⟩
       ⟨x - tabRadius, midY + tabSize * (3 / 10)⟩,
     PathCmd.quadCurve ⟨x - tabRadius * (12 / 10), midY⟩
       ⟨x - tabRadius, midY - tabSize * (3 / 10)⟩,
     PathCmd.quadCurve ⟨x - tabRadius * (3 / 10), midY - tabSize * (4 / 10)⟩
       ⟨x, midY - tabSize * (6 / 10)⟩,
     PathCmd.line ⟨x, y⟩]
  else if t = false ∧ 0 < x then
    [PathCmd.line ⟨x, midY + tabSize * (6 / 10)⟩,
     PathCmd.quadCurve ⟨x + tabRadius * (3 / 10), midY + tabSize * (4 / 10)⟩
       ⟨x + tabRadius, midY + tabSize * (3 / 10)⟩,
     PathCmd.quadCurve ⟨x + tabRadius * (12 / 10), midY⟩
       ⟨x + tabRadius, midY - tabSize * (3 / 10)⟩,
     PathCmd.quadCurve ⟨x + tabRadius * (3 / 10), midY - tabSize * (4 / 10)⟩
       ⟨x, midY - tabSize * (6 / 10)⟩,
     PathCmd.line ⟨x, y⟩]
  else
    [PathCmd.line ⟨x, y⟩]

/-- drawRealisticPuzzlePiece as a pure path value: corner moveTo, four edge
runs, closePath. -/
def classicPiecePath (width height x y w h : ℚ) (f : EdgeFlags) : List PathCmd :=
  PathCmd.move ⟨x, y⟩ ::
    (topEdgeCmds x y w h f.top ++ rightEdgeCmds width x y w h f.right ++
     bottomEdgeCmds height x y w h f.bottom ++ leftEdgeCmds x y w h f.left ++
     [PathCmd.close])

/-! ## Raster composition (lines 340-425) -/

/-- One raster operation: drawing the scaled source image, stroking a piece
boundary path, or filling a piece path in destination-out mode (cutting a
transparent hole). -/
inductive RasterOp where
  | drawImage : ℚ → ℚ → RasterOp
  | strokePath : List PathCmd → RasterOp
  | fillCut : List PathCmd → RasterOp
deriving DecidableEq, Repr

/-- The cells in row-major order, as visited by the nested stroke loops. -/
def cellList (s : Settings) : List (ℕ × ℕ) :=
  (List.range s.rows).flatMap (fun r => (List.range s.columns).map (fun c => (r, c)))

/-- The path stroked for cell (row, col) in the stroke loops
(lines 346-357 and 404-415): abstract style derives the per-piece seed
baseSeed + row * columns + col + 1, classic style reads the stored edge
flags. randF is the seed-indexed family of rand sequences. -/
def strokePieceCmds (s : Settings) (randF : ℤ → ℕ → ℚ) (seed : ℤ) (pattern : Pattern)
    (pw ph width height : ℚ) (row col : ℕ) : List PathCmd :=
  match s.pieceStyle with
  | Style.abstract =>
    abstractPiecePath (randF (seed + (row * s.columns + col + 1 : ℕ)))
      ((col : ℚ) * pw) ((row : ℚ) * ph) pw ph
  | Style.classic =>
    classicPiecePath width height ((col : ℚ) * pw) ((row : ℚ) * ph) pw ph (pattern row col)

/-- The path used to cut the hole for a missing index (lines 376-392):
row = floor(index / columns), col = index mod columns, then the same style
dispatch as the stroke loop. -/
def cutPieceCmds (s : Settings) (randF : ℤ → ℕ → ℚ) (seed : ℤ) (pattern : Pattern)
    (pw ph width height : ℚ) (idx : ℕ) : List PathCmd :=
  match s.pieceStyle with
  | Style.abstract =>
    abstractPiecePath (randF (seed + ((idx / s.columns) * s.columns + idx % s.columns + 1 : ℕ)))
      ((idx % s.columns : ℕ) * pw) ((idx / s.columns : ℕ) * ph) pw ph
  | Style.classic =>
    classicPiecePath width height ((idx % s.columns : ℕ) * pw) ((idx / s.columns : ℕ) * ph)
      pw ph (pattern (idx / s.columns) (idx % s.columns))

/-- The operations applied to the complete canvas (lines 122-123 and
340-361): draw the image, then stroke every piece path in row-major order.
The classic pattern is built from the coin outcomes even when the style is
abstract, exactly as in the source. -/
def completeOps (s : Settings) (randF : ℤ → ℕ → ℚ) (seed : ℤ)
    (coin : ℕ → ℕ → Fin 4 → Bool) (width height : ℚ) : List RasterOp :=
  RasterOp.drawImage width height ::
    (cellList s).map (fun rc =>
      RasterOp.strokePath (strokePieceCmds s randF seed
        (classicPattern s.rows s.columns coin)
        (width / (s.columns : ℚ)) (height / (s.rows : ℚ)) width height rc.1 rc.2))

/-- The operations applied to the missing canvas (lines 124 and 375-419):
draw the image, cut a hole for every selected missing index in insertion
order, then stroke every piece path exactly as on the complete canvas. -/
def missingOps (s : Settings) (randF : ℤ → ℕ → ℚ) (seed : ℤ)
    (coin : ℕ → ℕ → Fin 4 → Bool) (missingList : List ℕ) (width height : ℚ) :
    List RasterOp :=
  RasterOp.drawImage width height ::
    (missingList.map (fun idx =>
        RasterOp.fillCut (cutPieceCmds s randF seed
          (classicPattern s.rows s.columns coin)
          (width / (s.columns : ℚ)) (height / (s.rows : ℚ)) width height idx)) ++
     (cellList s).map (fun rc =>
        RasterOp.strokePath (strokePieceCmds s randF seed
          (classicPattern s.rows s.columns coin)
          (width / (s.columns : ℚ)) (height / (s.rows : ℚ)) width height rc.1 rc.2)))

/-! ## Determinism of the abstract style (C2) -/

/-- C2: for the abstract style the complete raster is a function of the
settings, the rand family and the seed alone - the Math.random coin flips
(the only hidden input that can differ between two calls with identical
image, configuration and seed) do not influence any emitted operation, so
two generation calls with identical inputs produce identical complete
rasters; the abstract path itself is a pure value of (seed, rectangle). -/
theorem abstract_complete_coin_independent (s : Settings) (randF : ℤ → ℕ → ℚ)
    (seed : ℤ) (coin1 coin2 : ℕ → ℕ → Fin 4 → Bool) (width height : ℚ)
    (hstyle : s.pieceStyle = Style.abstract) :
    completeOps s randF seed coin1 width height =
      completeOps s randF seed coin2 width height := by
  unfold completeOps
  simp only [strokePieceCmds, hstyle]

/-- C2 witness: on a concrete 3 x 3 abstract configuration, two opposite
coin outcome functions give the same complete raster operations. -/
theorem abstract_complete_coin_independent_w :
    completeOps (Settings.mk 3 3 30 Style.abstract) (fun _ _ => 0) 7
        (fun _ _ _ => true) 300 300 =
      completeOps (Settings.mk 3 3 30 Style.abstract) (fun _ _ => 0) 7
        (fun _ _ _ => false) 300 300 :=
  abstract_complete_coin_independent (Settings.mk 3 3 30 Style.abstract)
    (fun _ _ => 0) 7 (fun _ _ _ => true) (fun _ _ _ => false) 300 300 rfl

/-! ## No configuration validation (C4) -/

/-- C4: generatePuzzles performs no configuration validation at all. On a
configuration below every documented minimum (columns = 2, rows = 2,
missingPercentage = 5) the generation pipeline runs to completion: it
reports normal statistics, the missing-piece selector returns immediately,
and a non-empty complete operation list is produced - no InvalidConfiguration
error exists anywhere in the code, contradicting the fail-fast requirement. -/
theorem invalid_config_not_rejected :
    pieceStats (Settings.mk 2 2 5 Style.classic) = (4, 0) ∧
    fillMissingL (fun _ => 0) (missingCount (Settings.mk 2 2 5 Style.classic)) 0 0 [] =
      some [] ∧
    completeOps (Settings.mk 2 2 5 Style.classic) (fun _ _ => 0) 0
      (fun _ _ _ => false) 100 100 ≠ [] := by
  refine ⟨rfl, rfl, ?_⟩
  simp [completeOps]

/-! ## Zero missing pieces (C8) -/

/-- C8: whenever the computed missingCount is zero the selection loop exits
at once with the empty list, and the missing raster receives exactly the
operation sequence of the complete raster (image, then all strokes - no
hole is cut), so the two rasters are pixel-identical. -/
theorem missing_zero_identical (s : Settings) (randF : ℤ → ℕ → ℚ) (seed : ℤ)
    (coin : ℕ → ℕ → Fin 4 → Bool) (stream : ℕ → ℕ) (fuel : ℕ) (width height : ℚ)
    (h0 : missingCount s = 0) :
    fillMissingL stream (missingCount s) fuel 0 [] = some [] ∧
    missingOps s randF seed coin [] width height =
      completeOps s randF seed coin width height := by
  constructor
  · rw [h0]
    cases fuel <;> simp [fillMissingL]
  · simp [missingOps, completeOps]

/-- C8 witness: rows = 3, columns = 3, missingPercentage = 10 gives
missingCount = floor(9 * 10 / 100) = 0, an empty selection and identical
operation lists for both rasters. -/
theorem missing_zero_identical_w :
    fillMissingL (fun _ => 0) (missingCount (Settings.mk 3 3 10 Style.classic)) 5 0 [] =
      some [] ∧
    missingOps (Settings.mk 3 3 10 Style.classic) (fun _ _ => 0) 0
        (fun _ _ _ => false) [] 1 1 =
      completeOps (Settings.mk 3 3 10 Style.classic) (fun _ _ => 0) 0
        (fun _ _ _ => false) 1 1 :=
  missing_zero_identical (Settings.mk 3 3 10 Style.classic) (fun _ _ => 0) 0
    (fun _ _ _ => false) (fun _ => 0) 5 1 1 (by decide)

/-! ## Classic boundary edges are straight (C9) -/

/-- The top edge of cell (row, col) degenerates to the single straight
segment toward the top-right cell corner. -/
def topStraightAt (s : Settings) (width height : ℚ) (row col : ℕ) (f : EdgeFlags) : Prop :=
  topEdgeCmds ((col : ℚ) * (width / (s.columns : ℚ))) ((row : ℚ) * (height / (s.rows : ℚ)))
      (width / (s.columns : ℚ)) (height / (s.rows : ℚ)) f.top =
    [PathCmd.line ⟨(col : ℚ) * (width / (s.columns : ℚ)) + width / (s.columns : ℚ),
                   (row : ℚ) * (height / (s.rows : ℚ))⟩]

/-- The right edge of cell (row, col) degenerates to the single straight
segment toward the bottom-right cell corner. -/
def rightStraightAt (s : Settings) (width height : ℚ) (row col : ℕ) (f : EdgeFlags) : Prop :=
  rightEdgeCmds width ((col : ℚ) * (width / (s.columns : ℚ)))
      ((row : ℚ) * (height / (s.rows : ℚ)))
      (width / (s.columns : ℚ)) (height / (s.rows : ℚ)) f.right =
    [PathCmd.line ⟨(col : ℚ) * (width / (s.columns : ℚ)) + width / (s.columns : ℚ),
                   (row : ℚ) * (height / (s.rows : ℚ)) + height / (s.rows : ℚ)⟩]

/-- The bottom edge of cell (row, col) degenerates to the single straight
segment toward the bottom-left cell corner. -/
def bottomStraightAt (s : Settings) (width height : ℚ) (row col : ℕ) (f : EdgeFlags) : Prop :=
  bottomEdgeCmds height ((col : ℚ) * (width / (s.columns : ℚ)))
      ((row : ℚ) * (height / (s.rows : ℚ)))
      (width / (s.columns : ℚ)) (height / (s.rows : ℚ)) f.bottom =
    [PathCmd.line ⟨(col : ℚ) * (width / (s.columns : ℚ)),
                   (row : ℚ) * (height / (s.rows : ℚ)) + height / (s.rows : ℚ)⟩]

/-- The left edge of cell (row, col) degenerates to the single straight
segment back toward the top-left cell corner. -/
def leftStraightAt (s : Settings) (width height : ℚ) (row col : ℕ) (f : EdgeFlags) : Prop :=
  leftEdgeCmds ((col : ℚ) * (width / (s.columns : ℚ))) ((row : ℚ) * (height / (s.rows : ℚ)))
      (width / (s.columns : ℚ)) (height / (s.rows : ℚ)) f.left =
    [PathCmd.line ⟨(col : ℚ) * (width / (s.columns : ℚ)),
                   (row : ℚ) * (height / (s.rows : ℚ))⟩]

/-- C9: for the classic style at the cell rectangles used by generatePuzzles
(x = col * width / columns, y = row * height / rows), every edge lying on
the outer image boundary is emitted as a straight segment regardless of its
edge flag: top of row 0, right of the last column, bottom of the last row,
left of column 0 - no tab or blank bump is produced there. -/
theorem classic_boundary_edges_straight (s : Settings) (width height : ℚ)
    (row col : ℕ) (f : EdgeFlags) (hr : 3 ≤ s.rows) (hc : 3 ≤ s.columns) :
    (row = 0 → topStraightAt s width height row col f) ∧
    (col = s.columns - 1 → rightStraightAt s width height row col f) ∧
    (row = s.rows - 1 → bottomStraightAt s width height row col f) ∧
    (col = 0 → leftStraightAt s width height row col f) := by
  have hcq : ((s.columns : ℚ)) ≠ 0 := by
    exact_mod_cast Nat.pos_iff_ne_zero.mp (by omega)
  have hrq : ((s.rows : ℚ)) ≠ 0 := by
    exact_mod_cast Nat.pos_iff_ne_zero.mp (by omega)
  refine ⟨?_, ?_, ?_, ?_⟩
  · intro hrow
    subst hrow
    unfold topStraightAt topEdgeCmds
    norm_num
  · intro hcol
    subst hcol
    have hxw : ((s.columns - 1 : ℕ) : ℚ) * (width / (s.columns : ℚ)) +
        width / (s.columns : ℚ) = width := by
      rw [Nat.cast_sub (by omega : 1 ≤ s.columns)]
      field_simp
      ring
    unfold rightStraightAt rightEdgeCmds
    rw [hxw]
    simp [lt_irrefl]
  · intro hrow
    subst hrow
    have hyh : ((s.rows - 1 : ℕ) : ℚ) * (height / (s.rows : ℚ)) +
        height / (s.rows : ℚ) = height := by
      rw [Nat.cast_sub (by omega : 1 ≤ s.rows)]
      field_simp
      ring
    unfold bottomStraightAt bottomEdgeCmds
    rw [hyh]
    simp [lt_irrefl]
  · intro hcol
    subst hcol
    unfold leftStraightAt leftEdgeCmds
    norm_num

/-- The 3 x 3 classic configuration used by several witnesses. -/
def sC : Settings := Settings.mk 3 3 30 Style.classic

/-- C9 witness: on the 3 x 3 grid over a 300 x 300 raster, the top edge of
the cell (0, 2) and its right edge (last column) are straight even with
every flag set to true. -/
theorem classic_boundary_edges_straight_w :
    topStraightAt sC 300 300 0 2 (EdgeFlags.mk true true true true) ∧
    rightStraightAt sC 300 300 0 2 (EdgeFlags.mk true true true true) := by
  have h := classic_boundary_edges_straight sC 300 300 0 2
    (EdgeFlags.mk true true true true) (by decide) (by decide)
  exact ⟨h.1 rfl, h.2.1 (by decide)⟩

/-! ## Cut holes coincide with stroked borders (C10) -/

/-- C10: within one generation call, for every piece index below the total,
the path used to cut that piece out of the missing raster equals the path
stroked for the same piece (row = index / columns, col = index mod columns)
on that raster - same cell rectangle, same stored edge flags for classic,
same per-piece seed for abstract - and that piece is visited by the stroke
loop. -/
theorem cut_path_matches_stroke (s : Settings) (randF : ℤ → ℕ → ℚ) (seed : ℤ)
    (pattern : Pattern) (pw ph width height : ℚ) (idx : ℕ)
    (hidx : idx < s.rows * s.columns) :
    cutPieceCmds s randF seed pattern pw ph width height idx =
      strokePieceCmds s randF seed pattern pw ph width height
        (idx / s.columns) (idx % s.columns) ∧
    (idx / s.columns, idx % s.columns) ∈ cellList s := by
  constructor
  · rfl
  · have hc : 0 < s.columns := by
      rcases Nat.eq_zero_or_pos s.columns with h0 | h0
      · rw [h0, Nat.mul_zero] at hidx
        omega
      · exact h0
    have hdiv : idx / s.columns < s.rows :=
      Nat.div_lt_of_lt_mul (by rw [Nat.mul_comm]; exact hidx)
    have hmod : idx % s.columns < s.columns := Nat.mod_lt _ hc
    simp only [cellList, List.mem_flatMap, List.mem_map, List.mem_range]
    exact ⟨idx / s.columns, hdiv, idx % s.columns, hmod, rfl⟩

/-- C10 witness: index 4 on the 3 x 3 classic grid cuts and strokes the same
path at cell (1, 1). -/
theorem cut_path_matches_stroke_w :
    cutPieceCmds sC (fun _ _ => 0) 0 (fun _ _ => EdgeFlags.mk false false false false)
        100 100 300 300 4 =
      strokePieceCmds sC (fun _ _ => 0) 0 (fun _ _ => EdgeFlags.mk false false false false)
        100 100 300 300 (4 / sC.columns) (4 % sC.columns) ∧
    (4 / sC.columns, 4 % sC.columns) ∈ cellList sC :=
  cut_path_matches_stroke sC (fun _ _ => 0) 0
    (fun _ _ => EdgeFlags.mk false false false false) 100 100 300 300 4 (by decide)

/-! ## Halo bounds of the abstract path (C5) -/

/-- Membership in the 10 percent halo of the cell rectangle (x, y, w, h):
the box [x - 0.1 w, x + 1.1 w] x [y - 0.1 h, y + 1.1 h]. -/
def inHalo (x y w h : ℚ) (p : Point) : Prop :=
  x - w * (1 / 10) ≤ p.x ∧ p.x ≤ x + w * (11 / 10) ∧
  y - h * (1 / 10) ≤ p.y ∧ p.y ≤ y + h * (11 / 10)

/-- Membership in the 15 percent halo of the cell rectangle. -/
def inHalo15 (x y w h : ℚ) (p : Point) : Prop :=
  x - w * (15 / 100) ≤ p.x ∧ p.x ≤ x + w * (115 / 100) ∧
  y - h * (15 / 100) ≤ p.y ∧ p.y ≤ y + h * (115 / 100)

instance (x y w h : ℚ) (p : Point) : Decidable (inHalo x y w h p) := by
  unfold inHalo
  infer_instance

instance (x y w h : ℚ) (p : Point) : Decidable (inHalo15 x y w h p) := by
  unfold inHalo15
  infer_instance

/-- Every perimeter point lies in the 10 percent halo. -/
def perimWithinHalo (rand : ℕ → ℚ) (x y w h : ℚ) : Prop :=
  ∀ p ∈ abstractPoints rand x y w h, inHalo x y w h p

/-- Every point of the emitted path, kink points included, lies in the
10 percent halo. -/
def pathWithinHalo (rand : ℕ → ℚ) (x y w h : ℚ) : Prop :=
  ∀ p ∈ pathPoints (abstractPiecePath rand x y w h), inHalo x y w h p

/-- Every point of the emitted path, kink points included, lies in the
15 percent halo. -/
def pathWithinHalo15 (rand : ℕ → ℚ) (x y w h : ℚ) : Prop :=
  ∀ p ∈ pathPoints (abstractPiecePath rand x y w h), inHalo15 x y w h p

instance (rand : ℕ → ℚ) (x y w h : ℚ) : Decidable (pathWithinHalo rand x y w h) := by
  unfold pathWithinHalo
  exact List.decidableBAll _ _

instance (rand : ℕ → ℚ) (x y w h : ℚ) : Decidable (pathWithinHalo15 rand x y w h) := by
  unfold pathWithinHalo15
  exact List.decidableBAll _ _

/-- A constant rand sequence inside [0, 1) that drives every kink past the
10 percent halo. -/
def cRand : ℕ → ℚ := fun _ => 99 / 100

lemma pathPoints_kinkBlock (rand : ℕ → ℚ) (w h : ℚ) (pts : List Point) (i : ℕ) :
    pathPoints (kinkBlock rand w h pts i) =
      (if rand (i * 5 + 20) > 7 / 10 then
        [(⟨((pts.getD i default).x + (pts.getD (i - 1) default).x) / 2 +
            (rand (i * 4 + 15) - 1 / 2) * min w h * (1 / 10),
          ((pts.getD i default).y + (pts.getD (i - 1) default).y) / 2 +
            (rand (i * 4 + 16) - 1 / 2) * min w h * (1 / 10)⟩ : Point)]
      else []) ++ [pts.getD i default] := by
  unfold kinkBlock pathPoints
  by_cases hc : rand (i * 5 + 20) > 7 / 10 <;> simp [hc, cmdPoints]

lemma pathPoints_abstractPiecePath (rand : ℕ → ℚ) (x y w h : ℚ)
    (hne : (abstractPoints rand x y w h).length ≠ 0) :
    pathPoints (abstractPiecePath rand x y w h) =
      (abstractPoints rand x y w h).getD 0 default ::
        (List.range ((abstractPoints rand x y w h).length - 1)).flatMap
          (fun j => pathPoints (kinkBlock rand w h (abstractPoints rand x y w h) (j + 1))) := by
  unfold abstractPiecePath
  rw [if_neg hne]
  unfold pathPoints
  rw [List.flatMap_cons, List.flatMap_append, List.flatMap_assoc]
  simp [cmdPoints]

/-- C5 counterexample: a value sequence inside [0, 1) - the range the
sine-based generator guarantees - on the unit cell at the origin produces a
path with a kink point outside the 10 percent halo, because the source
clamps only the perimeter points (lines 217-218) and not the kink midpoints
(lines 233-234). So the claim that every emitted point, including kink
points, lies within the halo is false. -/
theorem abstract_halo_claim_false :
    (∀ i, 0 ≤ cRand i ∧ cRand i < 1) ∧ (0 : ℚ) < 1 ∧
    ¬ pathWithinHalo cRand 0 0 1 1 := by
  refine ⟨fun i => by norm_num [cRand], by norm_num, ?_⟩
  intro hall
  have hfloor : (⌊cRand 0 * 8⌋ : ℤ) = 7 := by
    unfold cRand
    rw [Int.floor_eq_iff]
    norm_num
  have hseg : segCount cRand = 19 := by
    unfold segCount
    rw [hfloor]
    rfl
  have hlen : (abstractPoints cRand 0 0 1 1).length = 19 := by
    unfold abstractPoints
    rw [List.length_map, List.length_range, hseg]
  have hne : (abstractPoints cRand 0 0 1 1).length ≠ 0 := by
    rw [hlen]
    norm_num
  have hget : ∀ i : ℕ, i < 19 →
      (abstractPoints cRand 0 0 1 1).getD i default = perimPoint cRand 0 0 1 1 19 i := by
    intro i hi
    unfold abstractPoints
    rw [List.getD_eq_getElem _ _ (by rw [List.length_map, List.length_range, hseg]; exact hi),
      List.getElem_map, List.getElem_range, hseg]
  have hx6 : (perimPoint cRand 0 0 1 1 19 6).x = 11 / 10 := by
    unfold perimPoint cRand
    norm_num [min_def, max_def]
  have hx5 : (perimPoint cRand 0 0 1 1 19 5).x = 11 / 10 := by
    unfold perimPoint cRand
    norm_num [min_def, max_def]
  have hKmem : (⟨(((abstractPoints cRand 0 0 1 1).getD (5 + 1) default).x +
        ((abstractPoints cRand 0 0 1 1).getD (5 + 1 - 1) default).x) / 2 +
        (cRand ((5 + 1) * 4 + 15) - 1 / 2) * min 1 1 * (1 / 10),
      (((abstractPoints cRand 0 0 1 1).getD (5 + 1) default).y +
        ((abstractPoints cRand 0 0 1 1).getD (5 + 1 - 1) default).y) / 2 +
        (cRand ((5 + 1) * 4 + 16) - 1 / 2) * min 1 1 * (1 / 10)⟩ : Point)
      ∈ pathPoints (abstractPiecePath cRand 0 0 1 1) := by
    rw [pathPoints_abstractPiecePath cRand 0 0 1 1 hne]
    refine List.mem_cons_of_mem _ (List.mem_flatMap.mpr ⟨5, ?_, ?_⟩)
    · rw [hlen]
      simp
    · rw [pathPoints_kinkBlock, if_pos (by norm_num [cRand])]
      simp
  obtain ⟨hlb, hub, hlb2, hub2⟩ := hall _ hKmem
  simp only [show (5 + 1 : ℕ) = 6 from rfl, show (5 + 1 - 1 : ℕ) = 5 from rfl] at hub
  rw [hget 6 (by norm_num), hget 5 (by norm_num)] at hub
  rw [hx6, hx5] at hub
  norm_num [cRand] at hub

lemma clamp_bounds (lo hi v : ℚ) (hlh : lo ≤ hi) :
    lo ≤ max lo (min hi v) ∧ max lo (min hi v) ≤ hi :=
  ⟨le_max_left _ _, max_le hlh (min_le_left _ _)⟩

lemma perimPoint_inHalo (rand : ℕ → ℚ) (x y w h : ℚ) (hw : 0 ≤ w) (hh : 0 ≤ h)
    (segments i : ℕ) :
    inHalo x y w h (perimPoint rand x y w h segments i) := by
  unfold inHalo perimPoint
  dsimp only
  refine ⟨le_max_left _ _, max_le (by linarith) (min_le_left _ _),
    le_max_left _ _, max_le (by linarith) (min_le_left _ _)⟩

/-- C5 amended: every perimeter point of the abstract path lies in the
10 percent halo (the clamp of lines 217-218 guarantees this outright), and
every emitted point - the unclamped kink midpoints included - lies in the
15 percent halo [x - 0.15 w, x + 1.15 w] x [y - 0.15 h, y + 1.15 h]: a kink
is the midpoint of two clamped points plus a jitter of at most
0.05 * min(w, h) in each axis. The rand hypothesis is what the sine-based
generator guarantees for its values. -/
theorem abstract_path_bounded (rand : ℕ → ℚ) (x y w h : ℚ)
    (hw : 0 ≤ w) (hh : 0 ≤ h) (hrand : ∀ i, 0 ≤ rand i ∧ rand i < 1) :
    perimWithinHalo rand x y w h ∧ pathWithinHalo15 rand x y w h := by
  have hperim : perimWithinHalo rand x y w h := by
    intro p hp
    unfold abstractPoints at hp
    rw [List.mem_map] at hp
    obtain ⟨i, _, rfl⟩ := hp
    exact perimPoint_inHalo rand x y w h hw hh _ i
  refine ⟨hperim, ?_⟩
  intro p hp
  by_cases hne : (abstractPoints rand x y w h).length = 0
  · unfold abstractPiecePath at hp
    rw [if_pos hne] at hp
    simp [pathPoints] at hp
  · rw [pathPoints_abstractPiecePath rand x y w h hne] at hp
    have hgetD : ∀ i : ℕ, i < (abstractPoints rand x y w h).length →
        inHalo x y w h ((abstractPoints rand x y w h).getD i default) := by
      intro i hi
      apply hperim
      rw [List.getD_eq_getElem _ _ hi]
      exact List.getElem_mem hi
    have hmono : ∀ q, inHalo x y w h q → inHalo15 x y w h q := by
      intro q hq
      obtain ⟨a, b, c, d⟩ := hq
      exact ⟨by linarith, by linarith, by linarith, by linarith⟩
    rcases List.mem_cons.mp hp with h0 | hblk
    · subst h0
      exact hmono _ (hgetD 0 (by omega))
    · obtain ⟨j, hj, hpin⟩ := List.mem_flatMap.mp hblk
      rw [List.mem_range] at hj
      rw [pathPoints_kinkBlock] at hpin
      have hj1 : j + 1 < (abstractPoints rand x y w h).length := by omega
      have hj0 : j + 1 - 1 < (abstractPoints rand x y w h).length := by omega
      obtain ⟨hcx1, hcx2, hcy1, hcy2⟩ := hgetD (j + 1) hj1
      obtain ⟨hpx1, hpx2, hpy1, hpy2⟩ := hgetD (j + 1 - 1) hj0
      rcases List.mem_append.mp hpin with hk | hcc
      · by_cases hcnd : rand ((j + 1) * 5 + 20) > 7 / 10
        · rw [if_pos hcnd] at hk
          rw [List.mem_singleton] at hk
          subst hk
          obtain ⟨hr1, hr2⟩ := hrand ((j + 1) * 4 + 15)
          obtain ⟨hs1, hs2⟩ := hrand ((j + 1) * 4 + 16)
          have hm0 : (0 : ℚ) ≤ min w h := le_min hw hh
          have hmw : min w h ≤ w := min_le_left _ _
          have hmh : min w h ≤ h := min_le_right _ _
          have hb1 : (rand ((j + 1) * 4 + 15) - 1 / 2) * min w h ≤ 1 / 2 * min w h :=
            mul_le_mul_of_nonneg_right (by linarith) hm0
          have hb2 : -(1 / 2) * min w h ≤ (rand ((j + 1) * 4 + 15) - 1 / 2) * min w h :=
            mul_le_mul_of_nonneg_right (by linarith) hm0
          have hb3 : (rand ((j + 1) * 4 + 16) - 1 / 2) * min w h ≤ 1 / 2 * min w h :=
            mul_le_mul_of_nonneg_right (by linarith) hm0
          have hb4 : -(1 / 2) * min w h ≤ (rand ((j + 1) * 4 + 16) - 1 / 2) * min w h :=
            mul_le_mul_of_nonneg_right (by linarith) hm0
          unfold inHalo15
          dsimp only
          refine ⟨by linarith, by linarith, by linarith, by linarith⟩
        · rw [if_neg hcnd] at hk
          simp at hk
      · rw [List.mem_singleton] at hcc
        subst hcc
        exact hmono _ ⟨hcx1, hcx2, hcy1, hcy2⟩

/-- C5 amended witness: the bound holds for the constant sequence 99 / 100
on the unit cell. -/
theorem abstract_path_bounded_w :
    perimWithinHalo cRand 0 0 1 1 ∧ pathWithinHalo15 cRand 0 0 1 1 :=
  abstract_path_bounded cRand 0 0 1 1 (by norm_num) (by norm_num)
    (fun i => by norm_num [cRand])

end Puzzle
